import Mathlib

/-!
Verification development for the `ncmt` repository (namespaced coded Merkle
trees).  The Go source (`layer.go`, `ncmt.go`) is shallowly embedded here:
byte strings are `List Nat`, the streaming `hash.Hash` is modelled by a pure
digest function `List Nat → List Nat` (Go's `h.Sum(prefix)` returns
`prefix ++ digest(absorbed bytes)`), and the `Codec` capability is a function
`List (List Nat) → Except Nat (List (List Nat))`.  Fallible Go paths
(returned errors, runtime panics such as out-of-bounds slice writes) are
modelled with `Except GoErr`; the unbounded `for` loop in `Build` is modelled
with explicit fuel, `GoErr.fuelOut` marking a loop that has not converged
within the given fuel.
-/

namespace NCMT

/-- Errors produced by the embedded Go code.  `codec e` carries the codec's
own error value; `panic` marks a Go runtime panic (out-of-range index);
`fuelOut` marks exhaustion of the fuel bounding `Build`'s unbounded loop. -/
inductive GoErr where
  | invalidNsSize : GoErr
  | outOfOrder : GoErr
  | unbatchable : GoErr
  | codec (e : Nat) : GoErr
  | panic : GoErr
  | fuelOut : GoErr
deriving DecidableEq, Repr

/-- `namespace.Data`: a namespace ID (fixed-size byte string) paired with a
raw payload.  `nsId` is `data.NamespaceID()`, `payload` is `data.Data()`. -/
structure NData where
  nsId : List Nat
  payload : List Nat
deriving DecidableEq, Repr, Inhabited

/-- The `node` struct of `layer.go`: a stored hash and the min/max namespace
IDs of the leaves spanned by the node. -/
structure Node where
  hash : List Nat
  min : List Nat
  max : List Nat
deriving DecidableEq, Repr, Inhabited

/-- The `leaf` struct of `layer.go`: a node that additionally owns its raw
namespaced data. -/
structure Leaf where
  node : Node
  data : NData
deriving DecidableEq, Repr, Inhabited

/-- A `leafRange` is the contiguous set of leaves `[start, stop)`. -/
structure LeafRange where
  start : Nat
  stop : Nat
deriving DecidableEq, Repr, Inhabited

/-- The recognized options of a tree: batch size, namespace-ID size, the
fresh-hash constructor (modelled by its induced digest function) and the
erasure codec. -/
structure Opts where
  batchSize : Nat
  nsSize : Nat
  digest : List Nat → List Nat
  codec : List (List Nat) → Except Nat (List (List Nat))

/-- The `NCMT` struct of `ncmt.go`: layers, their erasure extensions, the
leaf store, the namespace range index (Go `map[string]leafRange`, modelled
as an association list), the recorded original width and the options. -/
structure Tree where
  layers : List (List Node)
  extendedLayers : List (List Node)
  leaves : List Leaf
  namespaceRanges : List (List Nat × LeafRange)
  originalWidth : Nat
  opts : Opts

/-- `NewNCMT`: a fresh tree with empty stores and the given options. -/
def newNCMT (o : Opts) : Tree :=
  { layers := [], extendedLayers := [], leaves := [], namespaceRanges := [],
    originalWidth := 0, opts := o }

/-- Go `bytes.Compare` on byte strings: lexicographic, a strict prefix is
smaller. -/
def byteCmp : List Nat → List Nat → Ordering
  | [], [] => .eq
  | [], _ :: _ => .lt
  | _ :: _, [] => .gt
  | a :: as, b :: bs => if a < b then .lt else if b < a then .gt else byteCmp as bs

/-- `namespace.ID.LessOrEqual`: `bytes.Compare(id, other) <= 0`. -/
def idLessOrEqual (a b : List Nat) : Bool :=
  byteCmp a b ≠ Ordering.gt

/-- `newLeaf` of `layer.go`: absorbs `namespaceID ++ payload` into a fresh
hash and finalizes with the namespace ID alone as prefix, so the stored hash
is `nsId ++ digest (nsId ++ payload)`; `min = max =` the namespace ID. -/
def newLeaf (dg : List Nat → List Nat) (d : NData) : Leaf :=
  { data := d,
    node := { hash := d.nsId ++ dg (d.nsId ++ d.payload),
              min := d.nsId, max := d.nsId } }

/-- `newNode` of `layer.go`: min from the first child, max from the last,
and stored hash `min ++ max ++ digest (concatenation of children hashes)`
(`h.Sum(append(minID, maxID...))` after writing every child hash). -/
def newNode (dg : List Nat → List Nat) (children : List Node) : Node :=
  { min := (children.headD default).min,
    max := (children.getLastD default).max,
    hash := (children.headD default).min ++ (children.getLastD default).max ++
      dg ((children.map (fun c => c.hash)).flatten) }

/-- `nodeFromLeaves` of `layer.go`: the same construction as `newNode`, with
the children given as leaves. -/
def nodeFromLeaves (dg : List Nat → List Nat) (lvs : List Leaf) : Node :=
  { min := (lvs.headD default).node.min,
    max := (lvs.getLastD default).node.max,
    hash := (lvs.headD default).node.min ++ (lvs.getLastD default).node.max ++
      dg ((lvs.map (fun c => c.node.hash)).flatten) }

/-- `layer.raw`: the hashes of a layer's nodes. -/
def layerRaw (l : List Node) : List (List Nat) :=
  l.map (fun n => n.hash)

/-- `layer.extend`: encode the layer's hashes and rebuild nodes that keep
each original node's min/max but carry the encoded buffer as hash.  The Go
loop reads `encodedData[i]` for every `i < len(l)`, so an encode output
shorter than the layer is a runtime panic. -/
def layerExtend (codec : List (List Nat) → Except Nat (List (List Nat)))
    (l : List Node) : Except GoErr (List Node) :=
  match codec (layerRaw l) with
  | .error e => .error (.codec e)
  | .ok enc =>
    if enc.length < l.length then .error .panic
    else .ok (List.zipWith (fun n h => { min := n.min, max := n.max, hash := h }) l enc)

/-- `leaves.raw`: the raw payload bytes of each leaf (`leaf.data.Data()`). -/
def leavesRaw (l : List Leaf) : List (List Nat) :=
  l.map (fun lf => lf.data.payload)

/-- `leaves.extend`: encode the raw payloads and wrap each encoded buffer in
a leaf whose namespace ID (and node min/max) is a copy of the corresponding
input leaf's ID.  The wrapped node's hash field is left nil (the Go code
never calls `newLeaf` here). -/
def leavesExtend (codec : List (List Nat) → Except Nat (List (List Nat)))
    (l : List Leaf) : Except GoErr (List Leaf) :=
  match codec (leavesRaw l) with
  | .error e => .error (.codec e)
  | .ok enc =>
    if enc.length < l.length then .error .panic
    else .ok (List.zipWith (fun lf h =>
      { node := { hash := [], min := lf.data.nsId, max := lf.data.nsId },
        data := { nsId := lf.data.nsId, payload := h } }) l enc)

/-- `Root` of `ncmt.go`: digest of empty input when no layers exist, the
sole node's hash when the last layer has exactly one node, and an empty
byte string otherwise. -/
def Root (t : Tree) : List Nat :=
  if t.layers.isEmpty then t.opts.digest []
  else
    let latest := t.layers.getLastD []
    if latest.length ≠ 1 then [] else (latest.headD default).hash

/-- `updateNamespaceRanges` of `ncmt.go`: extend the range of the namespace
of the last stored leaf, or open a fresh singleton range for it. -/
def updateNamespaceRanges (t : Tree) : Tree :=
  if t.leaves.length > 0 then
    match t.namespaceRanges.lookup (t.leaves.getLastD default).data.nsId with
    | none =>
      { t with namespaceRanges :=
          t.namespaceRanges ++ [((t.leaves.getLastD default).data.nsId,
            { start := t.leaves.length - 1, stop := t.leaves.length - 1 + 1 })] }
    | some r =>
      { t with namespaceRanges :=
          t.namespaceRanges.map (fun p =>
            if p.1 = (t.leaves.getLastD default).data.nsId then
              (p.1, { start := r.start, stop := r.stop + 1 }) else p) }
  else t

/-- `Push` of `ncmt.go`: reject a namespace ID whose size differs from the
configured size; accept unconditionally on an empty leaf store; otherwise
require the last stored leaf's ID to be `LessOrEqual` the pushed ID.  On
success append `newLeaf` and update the namespace ranges. -/
def Push (t : Tree) (d : NData) : Except GoErr Tree :=
  if d.nsId.length ≠ t.opts.nsSize then .error .invalidNsSize
  else if t.leaves.isEmpty then
    .ok (updateNamespaceRanges { t with leaves := t.leaves ++ [newLeaf t.opts.digest d] })
  else if idLessOrEqual (t.leaves.getLastD default).data.nsId d.nsId then
    .ok (updateNamespaceRanges { t with leaves := t.leaves ++ [newLeaf t.opts.digest d] })
  else .error .outOfOrder

/-- `Push` folded over a list of data items, stopping at the first error. -/
def pushAll (t : Tree) (ds : List NData) : Except GoErr Tree :=
  ds.foldlM Push t

/-- Structural worker for `chunk`; the fuel argument (instantiated with the
list length) only forces termination and never runs out. -/
def chunkAux (b : Nat) : Nat → List α → List (List α)
  | _, [] => []
  | 0, x :: xs => [x :: xs]
  | fuel + 1, x :: xs => (x :: xs.take (b - 1)) :: chunkAux b fuel (xs.drop (b - 1))

/-- The fixed-stride batching `for i := 0; i < len(l); i += b` with
`l[i : min(i+b, len(l))]`: the list of consecutive batches of `b` elements,
the last batch clipped to the remaining length. -/
def chunk (b : Nat) (l : List α) : List (List α) :=
  chunkAux b l.length l

/-- The first layer built by `consolidateLeaves`: each batch of `b` original
leaves is concatenated with its batch of extended leaves and hashed by
`nodeFromLeaves`. -/
def mkLayerFromLeaves (dg : List Nat → List Nat) (b : Nat)
    (orig ext : List Leaf) : List Node :=
  List.zipWith (fun o e => nodeFromLeaves dg (o ++ e)) (chunk b orig) (chunk b ext)

/-- A consolidated layer of `consolidateNodes`: each batch of `b` original
nodes is concatenated with its batch of extended nodes and hashed by
`newNode`. -/
def mkLayerFromNodes (dg : List Nat → List Nat) (b : Nat)
    (orig ext : List Node) : List Node :=
  List.zipWith (fun o e => newNode dg (o ++ e)) (chunk b orig) (chunk b ext)

/-- `consolidateLeaves` of `ncmt.go`: extend the leaves, batch original and
extended leaves into the first layer, then append the extended leaves to the
leaf store and the new layer to the layer stack.  The Go loop writes
`ceil(len/b)` entries into a slice of length `len/b`, so a leaf count not
divisible by `b = batchSize/2` is an out-of-range write (panic); the panic
strikes before the appends, leaving the tree unchanged. -/
def consolidateLeaves (t : Tree) : Except GoErr Tree :=
  match leavesExtend t.opts.codec t.leaves with
  | .error e => .error e
  | .ok ext =>
    let b := t.opts.batchSize / 2
    if t.leaves.length % b ≠ 0 then .error .panic
    else .ok { t with
      layers := t.layers ++ [mkLayerFromLeaves t.opts.digest b t.leaves ext],
      leaves := t.leaves ++ ext }

/-- `consolidateNodes` of `ncmt.go`: extend the most recent layer, record
the extension in `extendedLayers`, and batch original and extended nodes
into the next layer.  As in `consolidateLeaves`, a latest-layer length not
divisible by `b` makes the Go loop write past the allocated slice (panic);
the extension has already been appended by then. -/
def consolidateNodes (t : Tree) : Except GoErr (List Node) × Tree :=
  let latest := t.layers.getLastD []
  match layerExtend t.opts.codec latest with
  | .error e => (.error e, t)
  | .ok ext =>
    let t2 := { t with extendedLayers := t.extendedLayers ++ [ext] }
    let b := t.opts.batchSize / 2
    if latest.length % b ≠ 0 then (.error .panic, t2)
    else (.ok (mkLayerFromNodes t.opts.digest b latest ext), t2)

/-- The final root read of `Build`: `n.layers[len(n.layers)-1][0].hash` —
a panic when the last layer is empty. -/
def rootRead (t : Tree) : Except GoErr (List Nat) × Tree :=
  match (t.layers.getLastD []).head? with
  | none => (.error .panic, t)
  | some nd => (.ok nd.hash, t)

/-- `Build`'s consolidation loop, `for len(layers[last]) > 1`, bounded by
fuel; each iteration runs `consolidateNodes` and appends the produced layer. -/
def buildLoop : Nat → Tree → Except GoErr (List Nat) × Tree
  | 0, t =>
    if 1 < (t.layers.getLastD []).length then (.error .fuelOut, t)
    else rootRead t
  | fuel + 1, t =>
    if 1 < (t.layers.getLastD []).length then
      match consolidateNodes t with
      | (.error e, t2) => (.error e, t2)
      | (.ok next, t2) => buildLoop fuel { t2 with layers := t2.layers ++ [next] }
    else rootRead t

/-- `Build` of `ncmt.go`: record `originalWidth`, reject a leaf count that
is not a multiple of the batch size, consolidate the leaves into the first
layer, then loop until the last layer has a single node and return its
hash.  Both the result and the tree state after the call are returned. -/
def build (fuel : Nat) (t : Tree) : Except GoErr (List Nat) × Tree :=
  let t1 := { t with originalWidth := t.leaves.length }
  if t1.leaves.length % t1.opts.batchSize ≠ 0 then (.error .unbatchable, t1)
  else match consolidateLeaves t1 with
    | .error e => (.error e, t1)
    | .ok t2 => buildLoop fuel t2

/-- Decidable equality of `Except` results, so that concrete runs of the
embedded code can be checked by `decide`. -/
instance instDecEqExceptNCMT {ε α : Type} [DecidableEq ε] [DecidableEq α] :
    DecidableEq (Except ε α)
  | .error e, .error f =>
    if h : e = f then .isTrue (by rw [h])
    else .isFalse (by intro hh; injection hh; contradiction)
  | .error _, .ok _ => .isFalse (by intro hh; exact Except.noConfusion hh)
  | .ok _, .error _ => .isFalse (by intro hh; exact Except.noConfusion hh)
  | .ok a, .ok b =>
    if h : a = b then .isTrue (by rw [h])
    else .isFalse (by intro hh; injection hh; contradiction)

/-! ### Concrete fixtures used by witnesses and counterexamples -/

/-- A toy digest standing in for the configured hash constructor: length of
the absorbed input followed by a running byte sum. -/
def tDigest (l : List Nat) : List Nat :=
  [l.length % 256, l.foldl (fun a b => (a + b) % 256) 7]

/-- A toy codec that always succeeds and returns one encoded buffer per
input buffer (the doubling parity convention of the codec contract). -/
def tCodec (xs : List (List Nat)) : Except Nat (List (List Nat)) :=
  .ok (xs.map (fun x => x.map (fun v => (v + 1) % 256)))

/-- Options mirroring the defaults of `NewNCMT` with small toy parameters:
batch size 4, 1-byte namespaces, `tDigest` and `tCodec`. -/
def tOpts : Opts :=
  { batchSize := 4, nsSize := 1, digest := tDigest, codec := tCodec }

/-- `tOpts` with batch size 2. -/
def t2Opts : Opts :=
  { batchSize := 2, nsSize := 1, digest := tDigest, codec := tCodec }

/-- Namespaced data item `n` with 1-byte namespace `n`. -/
def mkData (n : Nat) : NData := { nsId := [n], payload := [n, n] }

/-- A tree obtained by pushing `count` ordered items into a fresh tree. -/
def treeOf (o : Opts) (count : Nat) : Tree :=
  match pushAll (newNCMT o) ((List.range count).map mkData) with
  | .ok t => t
  | .error _ => newNCMT o

/-- The codec contract of the spec: encode always succeeds and yields one
parity buffer per input buffer. -/
def lengthPreserving (codec : List (List Nat) → Except Nat (List (List Nat))) : Prop :=
  ∀ xs, ∃ out, codec xs = Except.ok out ∧ out.length = xs.length

/-- The tree state reached by a batch-size-2 build on two leaves right after
`consolidateLeaves`, at the entry of the consolidation loop. -/
def t2Stuck : Tree :=
  match consolidateLeaves { treeOf t2Opts 2 with originalWidth := 2 } with
  | .ok t => t
  | .error _ => newNCMT t2Opts

/-! ### List helper lemmas -/

theorem getLastD_cons (a : α) (l : List α) (d : α) : (a :: l).getLastD d = l.getLastD a := by
  cases l <;> rfl

theorem getLastD_irrel (l : List α) (h : l ≠ []) (d d' : α) : l.getLastD d = l.getLastD d' := by
  induction l generalizing d d' with
  | nil => exact absurd rfl h
  | cons a t ih => cases t <;> rfl

theorem getLastD_append (l₁ l₂ : List α) (d : α) (h : l₂ ≠ []) :
    (l₁ ++ l₂).getLastD d = l₂.getLastD d := by
  induction l₁ generalizing d with
  | nil => rfl
  | cons a t ih =>
    rw [List.cons_append, getLastD_cons, ih a]
    cases l₂ with
    | nil => exact absurd rfl h
    | cons b u =>
      cases t with
      | nil => rfl
      | cons c v => rfl

theorem getLastD_drop (n : Nat) (l : List α) (d : α) (h : l.drop n ≠ []) :
    (l.drop n).getLastD d = l.getLastD d := by
  induction n generalizing l with
  | zero => rfl
  | succ m ih =>
    cases l with
    | nil => simp at h
    | cons a t =>
      have ht : t.drop m ≠ [] := by simpa using h
      have htne : t ≠ [] := by
        intro he; rw [he] at ht; simp at ht
      calc ((a :: t).drop (m + 1)).getLastD d = (t.drop m).getLastD d := by simp
        _ = t.getLastD d := ih t h
        _ = t.getLastD a := getLastD_irrel t htne d a
        _ = (a :: t).getLastD d := (getLastD_cons a t d).symm

theorem headD_append (l₁ l₂ : List α) (d : α) (h : l₁ ≠ []) :
    (l₁ ++ l₂).headD d = l₁.headD d := by
  cases l₁ with
  | nil => exact absurd rfl h
  | cons a t => rfl

theorem getLastD_mem (l : List α) (d : α) (h : l ≠ []) : l.getLastD d ∈ l := by
  induction l generalizing d with
  | nil => exact absurd rfl h
  | cons a t ih =>
    cases t with
    | nil => simp
    | cons b u =>
      rw [getLastD_cons]
      exact List.mem_cons_of_mem a (ih a (by simp))

theorem headD_mem (l : List α) (d : α) (h : l ≠ []) : l.headD d ∈ l := by
  cases l with
  | nil => exact absurd rfl h
  | cons a t => simp

theorem zipWith_ne_nil (f : α → β → γ) (as : List α) (bs : List β)
    (ha : as ≠ []) (hb : bs ≠ []) : List.zipWith f as bs ≠ [] := by
  cases as with
  | nil => exact absurd rfl ha
  | cons a as' =>
    cases bs with
    | nil => exact absurd rfl hb
    | cons b bs' => simp

theorem headD_zipWith (f : α → β → γ) (as : List α) (bs : List β)
    (da : α) (db : β) (dc : γ) (ha : as ≠ []) (hb : bs ≠ []) :
    (List.zipWith f as bs).headD dc = f (as.headD da) (bs.headD db) := by
  cases as with
  | nil => exact absurd rfl ha
  | cons a as' =>
    cases bs with
    | nil => exact absurd rfl hb
    | cons b bs' => rfl

theorem getLastD_zipWith (f : α → β → γ) (as : List α) (bs : List β)
    (da : α) (db : β) (dc : γ) (hlen : as.length = bs.length) (ha : as ≠ []) :
    (List.zipWith f as bs).getLastD dc = f (as.getLastD da) (bs.getLastD db) := by
  induction as generalizing bs da db dc with
  | nil => exact absurd rfl ha
  | cons a as' ih =>
    cases bs with
    | nil => simp at hlen
    | cons b bs' =>
      cases as' with
      | nil =>
        cases bs' with
        | nil => rfl
        | cons c cs => simp at hlen
      | cons a2 as2 =>
        cases bs' with
        | nil => simp at hlen
        | cons b2 bs2 =>
          have hlen' : (a2 :: as2).length = (b2 :: bs2).length := by simpa using hlen
          rw [List.zipWith_cons_cons,
            getLastD_cons (f a b) (List.zipWith f (a2 :: as2) (b2 :: bs2)) dc,
            getLastD_cons a (a2 :: as2) da,
            getLastD_cons b (b2 :: bs2) db]
          exact ih (b2 :: bs2) a b (f a b) hlen' (by simp)

/-! ### byteCmp lemmas -/

theorem byteCmp_refl (a : List Nat) : byteCmp a a = Ordering.eq := by
  induction a with
  | nil => rfl
  | cons x xs ih => simp [byteCmp, ih]

theorem idLessOrEqual_refl (a : List Nat) : idLessOrEqual a a = true := by
  simp [idLessOrEqual, byteCmp_refl]

theorem byteCmp_lt_iff_gt (a b : List Nat) : byteCmp a b = .lt ↔ byteCmp b a = .gt := by
  induction a generalizing b with
  | nil => cases b <;> simp [byteCmp]
  | cons x xs ih =>
    cases b with
    | nil => simp [byteCmp]
    | cons y ys =>
      simp only [byteCmp]
      by_cases h1 : x < y
      · have h2 : ¬ y < x := by omega
        simp [h1, h2]
      · by_cases h2 : y < x
        · simp [h1, h2]
        · simp [h1, h2, ih ys]

theorem byteCmp_trans_le (a b c : List Nat)
    (h1 : byteCmp a b ≠ .gt) (h2 : byteCmp b c ≠ .gt) : byteCmp a c ≠ .gt := by
  induction a generalizing b c with
  | nil => cases c <;> simp [byteCmp]
  | cons x xs ih =>
    cases b with
    | nil => simp [byteCmp] at h1
    | cons y ys =>
      cases c with
      | nil => simp [byteCmp] at h2
      | cons z zs =>
        simp only [byteCmp] at h1 h2 ⊢
        by_cases hxy : x < y
        · by_cases hyz : y < z
          · have : x < z := Nat.lt_trans hxy hyz
            simp [this]
          · by_cases hzy : z < y
            · simp [hxy] at h1
              simp [hyz, hzy] at h2
            · have hyzeq : y = z := by omega
              have : x < z := by omega
              simp [this]
        · by_cases hyx : y < x
          · simp [hxy, hyx] at h1
          · have hxyeq : x = y := by omega
            by_cases hyz : y < z
            · have : x < z := by omega
              simp [this]
            · by_cases hzy : z < y
              · simp [hyz, hzy] at h2
              · have : ¬ x < z := by omega
                have hzx : ¬ z < x := by omega
                simp only [hxy, hyx, if_neg, ite_false] at h1
                simp only [hyz, hzy, if_neg, ite_false] at h2
                simp [this, hzx]
                exact ih ys zs (by simpa using h1) (by simpa using h2)

theorem idLessOrEqual_trans (a b c : List Nat)
    (h1 : idLessOrEqual a b = true) (h2 : idLessOrEqual b c = true) :
    idLessOrEqual a c = true := by
  simp only [idLessOrEqual, ne_eq, decide_eq_true_eq] at h1 h2 ⊢
  exact byteCmp_trans_le a b c h1 h2

/-- In a `Chain'`-sorted list the head is a lower bound and the last element
an upper bound of every member. -/
theorem chain_headD_le_getLastD (ns : List (List Nat))
    (h : List.Chain' (fun a b => idLessOrEqual a b = true) ns) :
    ∀ x ∈ ns, idLessOrEqual (ns.headD []) x = true ∧
      idLessOrEqual x (ns.getLastD []) = true := by
  induction ns with
  | nil => intro x hx; simp at hx
  | cons a t ih =>
    intro x hx
    cases t with
    | nil =>
      simp at hx
      refine ⟨?_, ?_⟩
      · show idLessOrEqual a x = true
        rw [hx]; exact idLessOrEqual_refl a
      · show idLessOrEqual x a = true
        rw [hx]; exact idLessOrEqual_refl a
    | cons b u =>
      have hab : idLessOrEqual a b = true := (List.chain'_cons.mp h).1
      have hrest := ih (List.chain'_cons.mp h).2
      rcases List.mem_cons.mp hx with heq | hx'
      · constructor
        · show idLessOrEqual a x = true
          rw [heq]
          exact idLessOrEqual_refl a
        · show idLessOrEqual x ((a :: b :: u).getLastD []) = true
          rw [heq, getLastD_cons]
          have hirr : (b :: u).getLastD a = (b :: u).getLastD [] :=
            getLastD_irrel (b :: u) (by simp) a []
          rw [hirr]
          exact idLessOrEqual_trans a b ((b :: u).getLastD []) hab (hrest b (by simp)).2
      · have hx'' := hrest x hx'
        constructor
        · exact idLessOrEqual_trans a b x hab hx''.1
        · show idLessOrEqual x ((a :: b :: u).getLastD []) = true
          rw [getLastD_cons]
          have hirr : (b :: u).getLastD a = (b :: u).getLastD [] :=
            getLastD_irrel (b :: u) (by simp) a []
          rw [hirr]
          exact hx''.2

/-! ### chunk lemmas -/

theorem chunkAux_congr (b : Nat) :
    ∀ (f1 f2 : Nat) (l : List α), l.length ≤ f1 → l.length ≤ f2 →
      chunkAux b f1 l = chunkAux b f2 l := by
  intro f1
  induction f1 with
  | zero =>
    intro f2 l h1 h2
    have : l = [] := by
      cases l with
      | nil => rfl
      | cons x xs => simp at h1
    subst this
    cases f2 <;> rfl
  | succ f ih =>
    intro f2 l h1 h2
    cases l with
    | nil => cases f2 <;> rfl
    | cons x xs =>
      cases f2 with
      | zero => simp at h2
      | succ f2' =>
        show (x :: xs.take (b - 1)) :: chunkAux b f (xs.drop (b - 1)) =
          (x :: xs.take (b - 1)) :: chunkAux b f2' (xs.drop (b - 1))
        have hd : (xs.drop (b - 1)).length ≤ xs.length := by simp
        have hx : xs.length ≤ f := by simpa using h1
        have hx2 : xs.length ≤ f2' := by simpa using h2
        rw [ih f2' (xs.drop (b - 1)) (le_trans hd hx) (le_trans hd hx2)]

theorem chunk_cons (b : Nat) (x : α) (xs : List α) :
    chunk b (x :: xs) = (x :: xs.take (b - 1)) :: chunk b (xs.drop (b - 1)) := by
  show chunkAux b (x :: xs).length (x :: xs) = _
  simp only [List.length_cons, chunkAux]
  rw [chunkAux_congr b xs.length (xs.drop (b - 1)).length (xs.drop (b - 1)) (by simp) le_rfl]
  rfl

/-- Induction along the recursion structure of `chunk`. -/
theorem chunk_induction {motive : List α → Prop} (b : Nat)
    (h0 : motive [])
    (h1 : ∀ x xs, motive (xs.drop (b - 1)) → motive (x :: xs)) :
    ∀ l, motive l := by
  have key : ∀ (n : Nat) (l : List α), l.length ≤ n → motive l := by
    intro n
    induction n with
    | zero =>
      intro l hl
      cases l with
      | nil => exact h0
      | cons x xs => simp at hl
    | succ m ih =>
      intro l hl
      cases l with
      | nil => exact h0
      | cons x xs =>
        apply h1
        apply ih
        have hdl : (xs.drop (b - 1)).length ≤ xs.length := by simp
        simp at hl
        omega
  intro l
  exact key l.length l le_rfl

theorem chunk_eq_nil_iff (b : Nat) (l : List α) : chunk b l = [] ↔ l = [] := by
  cases l with
  | nil => simp [chunk, chunkAux]
  | cons x xs => rw [chunk_cons]; simp

theorem chunk_ne_nil_of_mem {b : Nat} {l : List α} (c : List α) (hc : c ∈ chunk b l) :
    c ≠ [] := by
  induction l using chunk_induction b with
  | h0 => simp [chunk, chunkAux] at hc
  | h1 x xs ih =>
    rw [chunk_cons] at hc
    rcases List.mem_cons.mp hc with h | h
    · subst h; simp
    · exact ih h

theorem chunk_length_dvd (b : Nat) (hb : 0 < b) (l : List α) (hd : b ∣ l.length) :
    (chunk b l).length = l.length / b := by
  induction l using chunk_induction b with
  | h0 => simp [chunk, chunkAux]
  | h1 x xs ih =>
    rw [chunk_cons]
    simp only [List.length_cons]
    rcases hd with ⟨m, hm⟩
    simp only [List.length_cons] at hm
    rcases m with _ | k
    · omega
    · have hexp : b * (k + 1) = b * k + b := by ring
      have hble : b ≤ xs.length + 1 := by omega
      have hdrop : (xs.drop (b - 1)).length = xs.length + 1 - b := by
        simp; omega
      have hdvd' : b ∣ (xs.drop (b - 1)).length := by
        rw [hdrop]; exact ⟨k, by omega⟩
      rw [ih hdvd', hdrop, hm]
      have h1 : b * (k + 1) - b = b * k := by omega
      rw [h1, Nat.mul_div_cancel_left _ hb, Nat.mul_div_cancel_left _ hb]

theorem chunk_headD_headD (b : Nat) (l : List α) (d : α) (h : l ≠ []) :
    ((chunk b l).headD []).headD d = l.headD d := by
  cases l with
  | nil => exact absurd rfl h
  | cons x xs => rw [chunk_cons]; rfl

theorem chunk_getLastD_getLastD (b : Nat) (l : List α) (d : α) (h : l ≠ []) :
    ((chunk b l).getLastD []).getLastD d = l.getLastD d := by
  induction l using chunk_induction b with
  | h0 => exact absurd rfl h
  | h1 x xs ih =>
    rw [chunk_cons]
    by_cases hdp : xs.drop (b - 1) = []
    · rw [hdp]
      have htake : xs.take (b - 1) = xs :=
        List.take_of_length_le (by rw [List.drop_eq_nil_iff] at hdp; exact hdp)
      simp only [chunk, chunkAux, htake]
      rfl
    · have hrest : chunk b (xs.drop (b - 1)) ≠ [] := by
        rw [ne_eq, chunk_eq_nil_iff]; exact hdp
      rw [getLastD_cons]
      rw [getLastD_irrel _ hrest (x :: xs.take (b - 1)) []]
      rw [ih hdp]
      have hxs : xs ≠ [] := by
        intro he; rw [he] at hdp; simp at hdp
      calc (xs.drop (b - 1)).getLastD d = xs.getLastD d := getLastD_drop _ _ _ hdp
        _ = xs.getLastD x := getLastD_irrel xs hxs d x
        _ = (x :: xs).getLastD d := (getLastD_cons x xs d).symm

theorem tCodec_lengthPreserving : lengthPreserving tCodec := by
  intro xs
  refine ⟨_, rfl, ?_⟩
  simp [tCodec]

/-- `updateNamespaceRanges` never touches the leaf store. -/
theorem updateNamespaceRanges_leaves (t : Tree) :
    (updateNamespaceRanges t).leaves = t.leaves := by
  unfold updateNamespaceRanges
  split
  · split <;> rfl
  · rfl

/-! ### Claim C1 -/

theorem take_drop_double_ns (mn mx rest : List Nat) (s : Nat)
    (h1 : mn.length = s) (h2 : mx.length = s) :
    (mn ++ mx ++ rest).take (2 * s) = mn ++ mx ∧
    (mn ++ mx ++ rest).drop (2 * s) = rest := by
  have hl : (mn ++ mx).length = 2 * s := by simp [h1, h2]; ring
  constructor
  · rw [← hl, List.take_left]
  · rw [← hl, List.drop_left]

theorem take_drop_single_ns (p rest : List Nat) (s : Nat) (h1 : p.length = s) :
    (p ++ rest).take s = p ∧ (p ++ rest).drop s = rest := by
  constructor
  · rw [← h1, List.take_left]
  · rw [← h1, List.drop_left]

/-- C1, corrected: the claim is false for leaf hashes.  `newLeaf` finalizes
with the namespace ID alone as prefix (`h.Sum(data.NamespaceID())`), so on a
concrete leaf the first `2 × NamespaceSize` bytes of the stored hash are not
`min ++ max`. -/
theorem c1_counterexample_leaf_prefix :
    (mkData 1).nsId.length = tOpts.nsSize ∧
    (newLeaf tDigest (mkData 1)).node.hash.take (2 * tOpts.nsSize) ≠
      (newLeaf tDigest (mkData 1)).node.min ++ (newLeaf tDigest (mkData 1)).node.max := by
  constructor
  · rfl
  · decide

/-- C1, amended: internal node hashes (`newNode`, `nodeFromLeaves`) carry
`min ++ max` as their first `2 × NamespaceSize` bytes followed by the digest
of the concatenated children hashes; a leaf hash (`newLeaf`) instead carries
the namespace ID once as its first `NamespaceSize` bytes, followed by the
digest of `namespaceID ++ payload`. -/
theorem c1_stored_hash_format (dg : List Nat → List Nat) (s : Nat)
    (children : List Node) (lvs : List Leaf) (d : NData)
    (hmin : (children.headD default).min.length = s)
    (hmax : (children.getLastD default).max.length = s)
    (hlmin : (lvs.headD default).node.min.length = s)
    (hlmax : (lvs.getLastD default).node.max.length = s)
    (hd : d.nsId.length = s) :
    ((newNode dg children).hash.take (2 * s) =
        (newNode dg children).min ++ (newNode dg children).max ∧
      (newNode dg children).hash.drop (2 * s) =
        dg ((children.map (fun c => c.hash)).flatten)) ∧
    ((nodeFromLeaves dg lvs).hash.take (2 * s) =
        (nodeFromLeaves dg lvs).min ++ (nodeFromLeaves dg lvs).max ∧
      (nodeFromLeaves dg lvs).hash.drop (2 * s) =
        dg ((lvs.map (fun c => c.node.hash)).flatten)) ∧
    ((newLeaf dg d).node.hash.take s = d.nsId ∧
      (newLeaf dg d).node.hash.drop s = dg (d.nsId ++ d.payload)) :=
  ⟨take_drop_double_ns _ _ _ s hmin hmax,
    take_drop_double_ns _ _ _ s hlmin hlmax,
    take_drop_single_ns _ _ s hd⟩

theorem c1_stored_hash_format_witness :
    ((newNode tDigest [newLeaf tDigest (mkData 0) |>.node]).hash.take (2 * 1) =
        (newNode tDigest [newLeaf tDigest (mkData 0) |>.node]).min ++
          (newNode tDigest [newLeaf tDigest (mkData 0) |>.node]).max) ∧
    ((newLeaf tDigest (mkData 2)).node.hash.take 1 = (mkData 2).nsId) :=
  ⟨(c1_stored_hash_format tDigest 1 [newLeaf tDigest (mkData 0) |>.node]
      [newLeaf tDigest (mkData 0)] (mkData 2) rfl rfl rfl rfl rfl).1.1,
    (c1_stored_hash_format tDigest 1 [newLeaf tDigest (mkData 0) |>.node]
      [newLeaf tDigest (mkData 0)] (mkData 2) rfl rfl rfl rfl rfl).2.2.1⟩

/-! ### Claim C5 -/

/-- C5, corrected: a build attempt with a leaf count not divisible by the
batch size errors out and leaves leaves, layers, extended layers and the
namespace range index untouched — but it does mutate `originalWidth`, which
is overwritten with the current leaf count before the check. -/
theorem c5_reject_unbatchable (fuel : Nat) (t : Tree)
    (h : t.leaves.length % t.opts.batchSize ≠ 0) :
    (build fuel t).1 = .error .unbatchable ∧
    (build fuel t).2.leaves = t.leaves ∧
    (build fuel t).2.layers = t.layers ∧
    (build fuel t).2.extendedLayers = t.extendedLayers ∧
    (build fuel t).2.namespaceRanges = t.namespaceRanges ∧
    (build fuel t).2.originalWidth = t.leaves.length := by
  simp [build, h]

theorem c5_reject_unbatchable_witness :
    (treeOf tOpts 1).leaves.length % (treeOf tOpts 1).opts.batchSize ≠ 0 ∧
    (build 5 (treeOf tOpts 1)).1 = .error .unbatchable ∧
    (build 5 (treeOf tOpts 1)).2.layers = (treeOf tOpts 1).layers :=
  ⟨by decide, (c5_reject_unbatchable 5 (treeOf tOpts 1) (by decide)).1,
    (c5_reject_unbatchable 5 (treeOf tOpts 1) (by decide)).2.2.1⟩

/-- C5, counterexample to the claim as stated: on a 1-leaf tree with batch
size 4 the rejected build returns the error and produces no layers, yet the
tree is not left fully unmutated — `originalWidth` changes from 0 to 1. -/
theorem c5_counterexample_originalWidth_mutated :
    (treeOf tOpts 1).leaves.length % (treeOf tOpts 1).opts.batchSize ≠ 0 ∧
    (treeOf tOpts 1).originalWidth = 0 ∧
    (build 5 (treeOf tOpts 1)).1 = Except.error GoErr.unbatchable ∧
    (build 5 (treeOf tOpts 1)).2.layers = [] ∧
    (build 5 (treeOf tOpts 1)).2.originalWidth = 1 :=
  ⟨by decide, rfl, rfl, rfl, rfl⟩

/-! ### Claim C6 -/

/-- C6, confirmed: on a non-empty tree, a push whose namespace ID compares
strictly below the last stored leaf's ID fails with an error (leaving no
updated tree), while a push of the configured ID size whose ID compares
greater-or-equal succeeds and appends exactly that one new leaf. -/
theorem c6_push_order (t : Tree) (d : NData) (hne : t.leaves ≠ []) :
    (byteCmp d.nsId (t.leaves.getLastD default).data.nsId = Ordering.lt →
      ∃ e, Push t d = Except.error e) ∧
    (d.nsId.length = t.opts.nsSize →
      idLessOrEqual (t.leaves.getLastD default).data.nsId d.nsId = true →
      Push t d = Except.ok (updateNamespaceRanges
        { t with leaves := t.leaves ++ [newLeaf t.opts.digest d] }) ∧
      (updateNamespaceRanges
        { t with leaves := t.leaves ++ [newLeaf t.opts.digest d] }).leaves =
        t.leaves ++ [newLeaf t.opts.digest d]) := by
  have hemp : t.leaves.isEmpty = false := by
    cases hl : t.leaves with
    | nil => exact absurd hl hne
    | cons a u => rfl
  constructor
  · intro hlt
    by_cases hsz : d.nsId.length = t.opts.nsSize
    · have hgt : byteCmp (t.leaves.getLastD default).data.nsId d.nsId = .gt :=
        (byteCmp_lt_iff_gt _ _).mp hlt
      have hle : idLessOrEqual (t.leaves.getLastD default).data.nsId d.nsId = false := by
        unfold idLessOrEqual
        rw [hgt]
        rfl
      have hle' : idLessOrEqual (t.leaves.getLast?.getD default).data.nsId d.nsId = false := by
        rw [← List.getLastD_eq_getLast?]; exact hle
      exact ⟨.outOfOrder, by simp [Push, hsz, hemp, hle, hle']⟩
    · exact ⟨.invalidNsSize, by simp [Push, hsz]⟩
  · intro hsz hle
    have hle' : idLessOrEqual (t.leaves.getLast?.getD default).data.nsId d.nsId = true := by
      rw [← List.getLastD_eq_getLast?]; exact hle
    refine ⟨by simp [Push, hsz, hemp, hle, hle'], updateNamespaceRanges_leaves _⟩

theorem c6_push_order_witness :
    (byteCmp (mkData 0).nsId
        ((treeOf tOpts 2).leaves.getLastD default).data.nsId = Ordering.lt →
      ∃ e, Push (treeOf tOpts 2) (mkData 0) = Except.error e) ∧
    ((mkData 0).nsId.length = (treeOf tOpts 2).opts.nsSize →
      idLessOrEqual ((treeOf tOpts 2).leaves.getLastD default).data.nsId
        (mkData 0).nsId = true →
      Push (treeOf tOpts 2) (mkData 0) = Except.ok (updateNamespaceRanges
        { treeOf tOpts 2 with
          leaves := (treeOf tOpts 2).leaves ++
            [newLeaf (treeOf tOpts 2).opts.digest (mkData 0)] }) ∧
      (updateNamespaceRanges
        { treeOf tOpts 2 with
          leaves := (treeOf tOpts 2).leaves ++
            [newLeaf (treeOf tOpts 2).opts.digest (mkData 0)] }).leaves =
        (treeOf tOpts 2).leaves ++
          [newLeaf (treeOf tOpts 2).opts.digest (mkData 0)]) :=
  c6_push_order (treeOf tOpts 2) (mkData 0) (by decide)

/-! ### Claim C8 -/

/-- C8, confirmed: `Root` returns the digest of empty input when no layers
exist, an empty result when the last layer holds more than one node, and the
sole node's hash when the last layer has exactly one node. -/
theorem c8_root_three_cases (t : Tree) :
    (t.layers = [] → Root t = t.opts.digest []) ∧
    (∀ la, t.layers.getLast? = some la → 1 < la.length → Root t = []) ∧
    (∀ la, t.layers.getLast? = some la → la.length = 1 →
      Root t = (la.headD default).hash) := by
  refine ⟨?_, ?_, ?_⟩
  · intro h
    simp [Root, h]
  · intro la hla hlen
    have hne : t.layers ≠ [] := by
      intro he; rw [he] at hla; simp at hla
    have hemp : t.layers.isEmpty = false := by
      cases hl : t.layers with
      | nil => exact absurd hl hne
      | cons a u => rfl
    have hgd : t.layers.getLast?.getD [] = la := by
      rw [hla]; rfl
    have hlen' : la.length ≠ 1 := by omega
    simp [Root, hemp, hgd, hlen']
  · intro la hla hlen
    have hne : t.layers ≠ [] := by
      intro he; rw [he] at hla; simp at hla
    have hemp : t.layers.isEmpty = false := by
      cases hl : t.layers with
      | nil => exact absurd hl hne
      | cons a u => rfl
    have hgd : t.layers.getLast?.getD [] = la := by
      rw [hla]; rfl
    simp [Root, hemp, hgd, hlen]

theorem c8_root_three_cases_witness :
    Root (newNCMT tOpts) = tOpts.digest [] :=
  (c8_root_three_cases (newNCMT tOpts)).1 rfl

/-! ### Claim C9 -/

theorem getD_eq_getElem (l : List α) (i : Nat) (d : α) (h : i < l.length) :
    l.getD i d = l[i] := by
  simp [List.getD_eq_getElem?_getD, List.getElem?_eq_getElem h]

/-- C9, confirmed: under the codec contract (one encoded buffer per input),
`leaves.extend` returns a list of the same length whose i-th leaf copies the
i-th input leaf's namespace ID into its ID and its node min/max, and carries
the codec's i-th encoded buffer as payload; when the codec fails, the
codec's error is propagated with no partial result. -/
theorem c9_leaves_extend_spec
    (codec : List (List Nat) → Except Nat (List (List Nat))) (l : List Leaf) :
    (∀ out, codec (leavesRaw l) = .ok out → l.length ≤ out.length →
      ∃ ext, leavesExtend codec l = .ok ext ∧ ext.length = l.length ∧
        ∀ i, i < l.length →
          (ext.getD i default).data.nsId = (l.getD i default).data.nsId ∧
          (ext.getD i default).node.min = (l.getD i default).data.nsId ∧
          (ext.getD i default).node.max = (l.getD i default).data.nsId ∧
          (ext.getD i default).data.payload = out.getD i []) ∧
    (∀ e, codec (leavesRaw l) = .error e →
      leavesExtend codec l = .error (.codec e)) := by
  constructor
  · intro out hok hle
    have hnlt : ¬ out.length < l.length := Nat.not_lt.mpr hle
    refine ⟨List.zipWith (fun lf h =>
        ({ node := { hash := [], min := lf.data.nsId, max := lf.data.nsId },
           data := { nsId := lf.data.nsId, payload := h } } : Leaf)) l out, ?_, ?_, ?_⟩
    · simp [leavesExtend, hok, hnlt]
    · simp
      omega
    · intro i hi
      have hi2 : i < out.length := lt_of_lt_of_le hi hle
      have hiz : i < (List.zipWith (fun lf h =>
          ({ node := { hash := [], min := lf.data.nsId, max := lf.data.nsId },
             data := { nsId := lf.data.nsId, payload := h } } : Leaf)) l out).length := by
        simp
        omega
      rw [getD_eq_getElem _ _ _ hiz, getD_eq_getElem _ _ _ hi, getD_eq_getElem _ _ _ hi2]
      simp [List.getElem_zipWith]
  · intro e herr
    simp [leavesExtend, herr]

theorem c9_leaves_extend_spec_witness :
    ∃ ext, leavesExtend tCodec [newLeaf tDigest (mkData 1)] = .ok ext ∧
      ext.length = 1 ∧
      ∀ i, i < ([newLeaf tDigest (mkData 1)] : List Leaf).length →
        (ext.getD i default).data.nsId =
          (([newLeaf tDigest (mkData 1)] : List Leaf).getD i default).data.nsId ∧
        (ext.getD i default).node.min =
          (([newLeaf tDigest (mkData 1)] : List Leaf).getD i default).data.nsId ∧
        (ext.getD i default).node.max =
          (([newLeaf tDigest (mkData 1)] : List Leaf).getD i default).data.nsId ∧
        (ext.getD i default).data.payload = ([[2, 2]] : List (List Nat)).getD i [] :=
  (c9_leaves_extend_spec tCodec [newLeaf tDigest (mkData 1)]).1 [[2, 2]] rfl
    (by decide)

/-! ### Claim C10 -/

/-- C10, confirmed: building a tree with zero leaves never yields a root.
The divisibility check passes (`0 % batchSize = 0`); then either the codec's
encode of the empty input errors and `Build` propagates it, or the first
layer produced is empty, the consolidation loop exits immediately, and the
final root read indexes into the empty layer (a panic). -/
theorem c10_zero_leaves_build_never_ok (t : Tree) (fuel : Nat) (h : t.leaves = []) :
    (∀ r, (build fuel t).1 ≠ Except.ok r) ∧
    ((∃ e, (build fuel t).1 = .error (.codec e)) ∨
      ((build fuel t).1 = .error .panic ∧
        (build fuel t).2.layers.getLastD [] = [])) := by
  have hlen : t.leaves.length = 0 := by rw [h]; rfl
  cases hc : t.opts.codec [] with
  | error e =>
    have hext : leavesExtend t.opts.codec ([] : List Leaf) = .error (.codec e) := by
      simp [leavesExtend, leavesRaw, hc]
    have hb : build fuel t =
        (.error (.codec e), { t with
          originalWidth := 0
          leaves := [] }) := by
      simp [build, h, hlen, consolidateLeaves, hext]
    rw [hb]
    exact ⟨fun r hr => Except.noConfusion hr, Or.inl ⟨e, rfl⟩⟩
  | ok enc =>
    have hext : leavesExtend t.opts.codec ([] : List Leaf) = .ok [] := by
      simp [leavesExtend, leavesRaw, hc]
    have hcl : consolidateLeaves { t with
        originalWidth := 0
        leaves := [] } =
        .ok { t with
          originalWidth := 0
          layers := t.layers ++ [[]]
          leaves := [] } := by
      simp [consolidateLeaves, hext, mkLayerFromLeaves, chunk, chunkAux]
    have hb : build fuel t = buildLoop fuel
        { t with
          originalWidth := 0
          layers := t.layers ++ [[]]
          leaves := [] } := by
      simp [build, h, hlen, hcl]
    have hlast : (({ t with
        originalWidth := 0
        layers := t.layers ++ [[]]
        leaves := [] } : Tree)).layers.getLastD [] = [] := by
      show (t.layers ++ [[]]).getLastD [] = []
      rw [getLastD_append _ _ _ (by simp)]
      rfl
    have hloop : buildLoop fuel
        { t with
          originalWidth := 0
          layers := t.layers ++ [[]]
          leaves := [] } =
        (.error .panic, { t with
          originalWidth := 0
          layers := t.layers ++ [[]]
          leaves := [] }) := by
      cases fuel with
      | zero => simp [buildLoop, hlast, rootRead]
      | succ m => simp [buildLoop, hlast, rootRead]
    rw [hb, hloop]
    exact ⟨fun r hr => Except.noConfusion hr, Or.inr ⟨rfl, hlast⟩⟩

theorem c10_zero_leaves_build_never_ok_witness :
    (∀ r, (build 5 (newNCMT tOpts)).1 ≠ Except.ok r) ∧
    ((∃ e, (build 5 (newNCMT tOpts)).1 = .error (.codec e)) ∨
      ((build 5 (newNCMT tOpts)).1 = .error .panic ∧
        (build 5 (newNCMT tOpts)).2.layers.getLastD [] = [])) :=
  c10_zero_leaves_build_never_ok (newNCMT tOpts) 5 rfl

/-! ### Claim C4 -/

/-- C4: the code contradicts its own documentation.  `Build`'s comment says
it "overides any data cached from a previous Build", but `consolidateLeaves`
appends to the existing layer stack and permanently appends the parity
leaves to the leaf store, so a second `Build` on an unchanged tree piles
three more layers on top of the previous two and returns a different root
hash (it now builds over the doubled, original-plus-parity, leaf set). -/
theorem c4_second_build_differs :
    ((build 10 (treeOf tOpts 4)).2.layers.map List.length = [2, 1]) ∧
    ((build 10 (treeOf tOpts 4)).1 = Except.ok [0, 3, 16, 207]) ∧
    ((build 10 ((build 10 (treeOf tOpts 4)).2)).2.layers.map List.length =
      [2, 1, 4, 2, 1]) ∧
    ((build 10 ((build 10 (treeOf tOpts 4)).2)).1 = Except.ok [0, 3, 16, 103]) ∧
    ([0, 3, 16, 207] ≠ ([0, 3, 16, 103] : List Nat)) := by
  refine ⟨by decide, by decide, by decide, by decide, by decide⟩

/-! ### Claim C2, counterexample -/

/-- C2, counterexample: 12 leaves with batch size 4 pass the build entry
check, yet the second layer produced has length 3, which is not a multiple
of `batchSize/2 = 2`; consolidating it writes past the allocated slice
(`nextLayer[1]` with `len(nextLayer) = 1`), modelled as the panic error. -/
theorem c2_counterexample_layer_not_multiple :
    (treeOf tOpts 12).leaves.length % tOpts.batchSize = 0 ∧
    (build 20 (treeOf tOpts 12)).2.layers.map List.length = [6, 3] ∧
    (3 % (tOpts.batchSize / 2) ≠ 0) ∧
    (build 20 (treeOf tOpts 12)).1 = Except.error GoErr.panic := by
  refine ⟨by decide, by decide, by decide, by decide⟩

/-! ### Extension and consolidation lemmas under the codec contract -/

theorem headD_eq_head?_getD (l : List α) (d : α) : l.headD d = l.head?.getD d := by
  cases l <;> rfl

theorem zipWith_left_eq_map (f : α → γ) :
    ∀ (as : List α) (bs : List β), as.length ≤ bs.length →
      List.zipWith (fun a _ => f a) as bs = as.map f := by
  intro as
  induction as with
  | nil => intro bs h; simp
  | cons a as' ih =>
    intro bs h
    cases bs with
    | nil => simp at h
    | cons b bs' => simp [ih bs' (by simpa using h)]

theorem getLastD_map (f : α → β) :
    ∀ (xs : List α) (d : α), (xs.map f).getLastD (f d) = f (xs.getLastD d) := by
  intro xs
  induction xs with
  | nil => intro d; rfl
  | cons a t ih =>
    intro d
    rw [List.map_cons, getLastD_cons, getLastD_cons, ih a]

theorem headD_map_ne (f : α → β) (l : List α) (hne : l ≠ []) (d1 : β) (d2 : α) :
    (l.map f).headD d1 = f (l.headD d2) := by
  cases l with
  | nil => exact absurd rfl hne
  | cons a t => rfl

theorem getLastD_map_ne (f : α → β) (l : List α) (hne : l ≠ []) (d1 : β) (d2 : α) :
    (l.map f).getLastD d1 = f (l.getLastD d2) := by
  have hmne : l.map f ≠ [] := by
    cases l with
    | nil => exact absurd rfl hne
    | cons a t => simp
  rw [getLastD_irrel _ hmne d1 (f d2), getLastD_map]

theorem getLastD_proj_eq {π1 : α → γ} {π2 : β → γ} (xs : List α) (ys : List β)
    (dx : α) (dy : β) (hne : xs ≠ [])
    (hmap : xs.map π1 = ys.map π2) :
    π1 (xs.getLastD dx) = π2 (ys.getLastD dy) := by
  have hyne : ys ≠ [] := by
    intro h
    rw [h] at hmap
    simp at hmap
    exact hne hmap
  rw [← getLastD_map_ne π1 xs hne (π1 dx) dx, ← getLastD_map_ne π2 ys hyne (π1 dx) dy, hmap]

theorem layerExtend_ok (codec : List (List Nat) → Except Nat (List (List Nat)))
    (hc : lengthPreserving codec) (l : List Node) :
    ∃ ext, layerExtend codec l = .ok ext ∧ ext.length = l.length ∧
      ext.map Node.min = l.map Node.min ∧ ext.map Node.max = l.map Node.max := by
  obtain ⟨out, hok, hlenout⟩ := hc (layerRaw l)
  have hlen' : out.length = l.length := by rw [hlenout]; simp [layerRaw]
  have hnlt : ¬ out.length < l.length := by omega
  refine ⟨List.zipWith (fun n h => { min := n.min, max := n.max, hash := h }) l out,
    ?_, ?_, ?_, ?_⟩
  · simp [layerExtend, hok, hnlt]
  · simp
    omega
  · rw [List.map_zipWith]
    exact zipWith_left_eq_map Node.min l out (by omega)
  · rw [List.map_zipWith]
    exact zipWith_left_eq_map Node.max l out (by omega)

theorem leavesExtend_ok (codec : List (List Nat) → Except Nat (List (List Nat)))
    (hc : lengthPreserving codec) (l : List Leaf) :
    ∃ ext, leavesExtend codec l = .ok ext ∧ ext.length = l.length ∧
      ext.map (fun lf => lf.node.min) = l.map (fun lf => lf.data.nsId) ∧
      ext.map (fun lf => lf.node.max) = l.map (fun lf => lf.data.nsId) := by
  obtain ⟨out, hok, hlenout⟩ := hc (leavesRaw l)
  have hlen' : out.length = l.length := by rw [hlenout]; simp [leavesRaw]
  have hnlt : ¬ out.length < l.length := by omega
  refine ⟨List.zipWith (fun lf h =>
      ({ node := { hash := [], min := lf.data.nsId, max := lf.data.nsId },
         data := { nsId := lf.data.nsId, payload := h } } : Leaf)) l out,
    ?_, ?_, ?_, ?_⟩
  · simp [leavesExtend, hok, hnlt]
  · simp
    omega
  · rw [List.map_zipWith]
    exact zipWith_left_eq_map (fun lf => lf.data.nsId) l out (by omega)
  · rw [List.map_zipWith]
    exact zipWith_left_eq_map (fun lf => lf.data.nsId) l out (by omega)

theorem consolidateNodes_ok (t : Tree) (b : Nat) (hb : 0 < b)
    (hbs : t.opts.batchSize / 2 = b)
    (hc : lengthPreserving t.opts.codec)
    (hdvd : b ∣ (t.layers.getLastD []).length) :
    ∃ next ext, consolidateNodes t =
        (.ok next, { t with extendedLayers := t.extendedLayers ++ [ext] }) ∧
      next.length = (t.layers.getLastD []).length / b ∧
      ((t.layers.getLastD []) ≠ [] →
        (next.headD default).min = ((t.layers.getLastD []).headD default).min ∧
        (next.getLastD default).max = ((t.layers.getLastD []).getLastD default).max) := by
  obtain ⟨ext, hext, hextlen, hmin, hmax⟩ := layerExtend_ok t.opts.codec hc (t.layers.getLastD [])
  have hmod : (t.layers.getLastD []).length % b = 0 := by
    rcases hdvd with ⟨m, hm⟩
    rw [hm]
    exact Nat.mul_mod_right b m
  have h1 : (chunk b (t.layers.getLastD [])).length = (t.layers.getLastD []).length / b :=
    chunk_length_dvd b hb _ hdvd
  have h2 : (chunk b ext).length = (t.layers.getLastD []).length / b := by
    rw [chunk_length_dvd b hb ext (by rw [hextlen]; exact hdvd), hextlen]
  have hext' : layerExtend t.opts.codec (t.layers.getLast?.getD []) = Except.ok ext := by
    rw [← List.getLastD_eq_getLast?]; exact hext
  have hmod' : (t.layers.getLast?.getD []).length % b = 0 := by
    rw [← List.getLastD_eq_getLast?]; exact hmod
  have h1' : (chunk b (t.layers.getLast?.getD [])).length =
      (t.layers.getLast?.getD []).length / b := by
    rw [← List.getLastD_eq_getLast?]; exact h1
  have h2' : (chunk b ext).length = (t.layers.getLast?.getD []).length / b := by
    rw [← List.getLastD_eq_getLast?]; exact h2
  refine ⟨mkLayerFromNodes t.opts.digest b (t.layers.getLastD []) ext, ext, ?_, ?_, ?_⟩
  · simp [consolidateNodes, hext', hbs, hmod']
  · simp [mkLayerFromNodes, h1', h2']
  · intro hne
    have hextne : ext ≠ [] := by
      intro he
      rw [he] at hextlen
      exact hne (List.length_eq_zero.mp hextlen.symm)
    have hchne1 : chunk b (t.layers.getLastD []) ≠ [] := by
      rw [ne_eq, chunk_eq_nil_iff]; exact hne
    have hchne2 : chunk b ext ≠ [] := by
      rw [ne_eq, chunk_eq_nil_iff]; exact hextne
    constructor
    · simp only [mkLayerFromNodes]
      rw [headD_zipWith _ _ _ [] [] default hchne1 hchne2]
      show ((((chunk b (t.layers.getLastD [])).headD []) ++
        ((chunk b ext).headD [])).headD default).min = _
      have hc0ne : (chunk b (t.layers.getLastD [])).headD [] ≠ [] :=
        chunk_ne_nil_of_mem _ (headD_mem _ _ hchne1)
      rw [headD_append _ _ _ hc0ne, chunk_headD_headD b _ default hne]
    · simp only [mkLayerFromNodes]
      rw [getLastD_zipWith _ _ _ [] [] default (by rw [h1, h2]) hchne1]
      show ((((chunk b (t.layers.getLastD [])).getLastD []) ++
        ((chunk b ext).getLastD [])).getLastD default).max = _
      have hele : (chunk b ext).getLastD [] ≠ [] :=
        chunk_ne_nil_of_mem _ (getLastD_mem _ _ hchne2)
      rw [getLastD_append _ _ _ hele, chunk_getLastD_getLastD b ext default hextne]
      exact getLastD_proj_eq ext (t.layers.getLastD []) default default hextne hmax

theorem consolidateLeaves_ok (t : Tree) (b : Nat) (hb : 0 < b)
    (hbs : t.opts.batchSize / 2 = b)
    (hc : lengthPreserving t.opts.codec)
    (hdvd : b ∣ t.leaves.length) :
    ∃ ext, consolidateLeaves t = .ok { t with
        layers := t.layers ++ [mkLayerFromLeaves t.opts.digest b t.leaves ext]
        leaves := t.leaves ++ ext } ∧
      (mkLayerFromLeaves t.opts.digest b t.leaves ext).length = t.leaves.length / b ∧
      (t.leaves ≠ [] →
        ((mkLayerFromLeaves t.opts.digest b t.leaves ext).headD default).min =
          (t.leaves.headD default).node.min ∧
        ((mkLayerFromLeaves t.opts.digest b t.leaves ext).getLastD default).max =
          (t.leaves.getLastD default).data.nsId) := by
  obtain ⟨ext, hext, hextlen, hmin, hmax⟩ := leavesExtend_ok t.opts.codec hc t.leaves
  have hmod : t.leaves.length % b = 0 := by
    rcases hdvd with ⟨m, hm⟩
    rw [hm]
    exact Nat.mul_mod_right b m
  have h1 : (chunk b t.leaves).length = t.leaves.length / b :=
    chunk_length_dvd b hb _ hdvd
  have h2 : (chunk b ext).length = t.leaves.length / b := by
    rw [chunk_length_dvd b hb ext (by rw [hextlen]; exact hdvd), hextlen]
  refine ⟨ext, ?_, ?_, ?_⟩
  · simp [consolidateLeaves, hext, hbs, hmod]
  · simp [mkLayerFromLeaves, h1, h2]
  · intro hne
    have hextne : ext ≠ [] := by
      intro he
      rw [he] at hextlen
      exact hne (List.length_eq_zero.mp hextlen.symm)
    have hchne1 : chunk b t.leaves ≠ [] := by
      rw [ne_eq, chunk_eq_nil_iff]; exact hne
    have hchne2 : chunk b ext ≠ [] := by
      rw [ne_eq, chunk_eq_nil_iff]; exact hextne
    constructor
    · simp only [mkLayerFromLeaves]
      rw [headD_zipWith _ _ _ [] [] default hchne1 hchne2]
      show ((((chunk b t.leaves).headD []) ++
        ((chunk b ext).headD [])).headD default).node.min = _
      have hc0ne : (chunk b t.leaves).headD [] ≠ [] :=
        chunk_ne_nil_of_mem _ (headD_mem _ _ hchne1)
      rw [headD_append _ _ _ hc0ne, chunk_headD_headD b _ default hne]
    · simp only [mkLayerFromLeaves]
      rw [getLastD_zipWith _ _ _ [] [] default (by rw [h1, h2]) hchne1]
      show ((((chunk b t.leaves).getLastD []) ++
        ((chunk b ext).getLastD [])).getLastD default).node.max = _
      have hele : (chunk b ext).getLastD [] ≠ [] :=
        chunk_ne_nil_of_mem _ (getLastD_mem _ _ hchne2)
      rw [getLastD_append _ _ _ hele, chunk_getLastD_getLastD b ext default hextne]
      exact getLastD_proj_eq ext t.leaves default default hextne hmax

/-! ### The consolidation loop -/

/-- Under the codec contract, starting from a last layer of length `b ^ k`
(`b = batchSize/2 ≥ 2`), the consolidation loop converges within `k`
iterations: it returns the sole node's hash of the final one-node layer, and
every appended layer has a length that is a power of `b` and inherits the
head min and last max of the starting layer. -/
theorem buildLoop_converges (b : Nat) (hb : 2 ≤ b) :
    ∀ (k fuel : Nat) (st : Tree), k ≤ fuel →
      st.opts.batchSize / 2 = b →
      lengthPreserving st.opts.codec →
      (st.layers.getLastD []).length = b ^ k →
      ∃ st' added,
        buildLoop fuel st = (.ok (((st'.layers.getLastD []).headD default).hash), st') ∧
        st'.layers = st.layers ++ added ∧
        (st'.layers.getLastD []).length = 1 ∧
        st'.opts = st.opts ∧
        st'.leaves = st.leaves ∧
        ∀ la ∈ added, (∃ j, la.length = b ^ j) ∧ la ≠ [] ∧
          (la.headD default).min = ((st.layers.getLastD []).headD default).min ∧
          (la.getLastD default).max = ((st.layers.getLastD []).getLastD default).max := by
  intro k
  induction k with
  | zero =>
    intro fuel st hfuel hbs hc hlen
    simp only [pow_zero] at hlen
    have hlt : ¬ 1 < (st.layers.getLastD []).length := by omega
    have hne : (st.layers.getLastD []) ≠ [] :=
      List.ne_nil_of_length_pos (by omega)
    obtain ⟨nd, hnd⟩ : ∃ nd, (st.layers.getLastD []).head? = some nd := by
      cases hcase : (st.layers.getLastD []) with
      | nil => exact absurd hcase hne
      | cons a u => exact ⟨a, rfl⟩
    have hnd' : (st.layers.getLast?.getD []).head? = some nd := by
      rw [← List.getLastD_eq_getLast?]; exact hnd
    refine ⟨st, [], ?_, by simp, by omega, rfl, rfl, by simp⟩
    have hlt' : ¬ 1 < (st.layers.getLast?.getD []).length := by
      rw [← List.getLastD_eq_getLast?]; exact hlt
    cases fuel with
    | zero => simp [buildLoop, hlt', rootRead, hnd']
    | succ f => simp [buildLoop, hlt', rootRead, hnd']
  | succ k ih =>
    intro fuel st hfuel hbs hc hlen
    have hb0 : 0 < b := by omega
    have hpow : b ≤ b ^ (k + 1) := Nat.le_self_pow (by omega) b
    have hlt : 1 < (st.layers.getLastD []).length := by omega
    obtain ⟨f, rfl⟩ : ∃ f, fuel = f + 1 := ⟨fuel - 1, by omega⟩
    have hdvd : b ∣ (st.layers.getLastD []).length := by
      rw [hlen, pow_succ]
      exact dvd_mul_left _ _
    obtain ⟨next, ext, hcons, hnlen, hminmax⟩ := consolidateNodes_ok st b hb0 hbs hc hdvd
    have hnlen' : next.length = b ^ k := by
      rw [hnlen, hlen, pow_succ, Nat.mul_div_cancel _ hb0]
    have hlastne : (st.layers.getLastD []) ≠ [] :=
      List.ne_nil_of_length_pos (by omega)
    have hlast3 : ((({ st with
        extendedLayers := st.extendedLayers ++ [ext]
        layers := st.layers ++ [next] }) : Tree).layers.getLastD []) = next := by
      show ((st.layers ++ [next]).getLastD []) = next
      rw [getLastD_append _ _ _ (by simp)]
      rfl
    have hlt' : 1 < (st.layers.getLast?.getD []).length := by
      rw [← List.getLastD_eq_getLast?]; exact hlt
    have hstep : buildLoop (f + 1) st = buildLoop f { st with
        extendedLayers := st.extendedLayers ++ [ext]
        layers := st.layers ++ [next] } := by
      simp [buildLoop, hlt', hcons]
    obtain ⟨st', added', hloop, hlayers, hone, hopts, hleaves, hgood⟩ :=
      ih f { st with
        extendedLayers := st.extendedLayers ++ [ext]
        layers := st.layers ++ [next] } (by omega) hbs hc (by rw [hlast3]; exact hnlen')
    refine ⟨st', [next] ++ added', ?_, ?_, hone, hopts, hleaves, ?_⟩
    · rw [hstep]
      exact hloop
    · rw [hlayers]
      show (st.layers ++ [next]) ++ added' = st.layers ++ ([next] ++ added')
      rw [List.append_assoc]
    · intro la hla
      rcases List.mem_append.mp hla with hla1 | hla2
      · have hlaeq : la = next := by simpa using hla1
        subst hlaeq
        refine ⟨⟨k, hnlen'⟩, List.ne_nil_of_length_pos (by rw [hnlen']; positivity), ?_, ?_⟩
        · exact (hminmax hlastne).1
        · exact (hminmax hlastne).2
      · obtain ⟨⟨j, hj⟩, hlane, hlamin, hlamax⟩ := hgood la hla2
        rw [hlast3] at hlamin hlamax
        refine ⟨⟨j, hj⟩, hlane, ?_, ?_⟩
        · rw [hlamin]
          exact (hminmax hlastne).1
        · rw [hlamax]
          exact (hminmax hlastne).2

/-- `Build` on a fresh accumulation whose leaf count is `b ^ (k+1)` (with
`b = batchSize/2 ≥ 2`) succeeds under the codec contract: the final layer
has exactly one node whose hash is returned, and every produced layer has a
power-of-`b` length and carries the head leaf's min and the last leaf's
namespace ID as its head min and last max. -/
theorem build_success (t : Tree) (k fuel : Nat)
    (hb : 2 ≤ t.opts.batchSize / 2)
    (hc : lengthPreserving t.opts.codec)
    (hlen : t.leaves.length = (t.opts.batchSize / 2) ^ (k + 1))
    (hmul : t.leaves.length % t.opts.batchSize = 0)
    (hfuel : k ≤ fuel)
    (hlay : t.layers = []) :
    ∃ st', build fuel t = (.ok (((st'.layers.getLastD []).headD default).hash), st') ∧
      (st'.layers.getLastD []).length = 1 ∧
      ∀ la ∈ st'.layers, (∃ j, la.length = (t.opts.batchSize / 2) ^ j) ∧ la ≠ [] ∧
        (la.headD default).min = (t.leaves.headD default).node.min ∧
        (la.getLastD default).max = (t.leaves.getLastD default).data.nsId := by
  have hb0 : 0 < t.opts.batchSize / 2 := by omega
  have hpos : 0 < t.leaves.length := by
    rw [hlen]
    positivity
  have hne : t.leaves ≠ [] := List.ne_nil_of_length_pos hpos
  have hdvd : (t.opts.batchSize / 2) ∣ t.leaves.length := by
    rw [hlen, pow_succ]
    exact dvd_mul_left _ _
  obtain ⟨ext, hcl, hl0len, hl0minmax⟩ :=
    consolidateLeaves_ok { t with originalWidth := t.leaves.length }
      (t.opts.batchSize / 2) hb0 rfl hc hdvd
  have hbuild : build fuel t = buildLoop fuel { t with
      originalWidth := t.leaves.length
      layers := t.layers ++ [mkLayerFromLeaves t.opts.digest (t.opts.batchSize / 2) t.leaves ext]
      leaves := t.leaves ++ ext } := by
    simp [build, hmul, hcl]
  have hL0len : (mkLayerFromLeaves t.opts.digest (t.opts.batchSize / 2) t.leaves ext).length =
      (t.opts.batchSize / 2) ^ k := by
    rw [hl0len, hlen, pow_succ, Nat.mul_div_cancel _ hb0]
  have hlast2 : ((({ t with
      originalWidth := t.leaves.length
      layers := t.layers ++ [mkLayerFromLeaves t.opts.digest (t.opts.batchSize / 2) t.leaves ext]
      leaves := t.leaves ++ ext }) : Tree).layers.getLastD []) =
      mkLayerFromLeaves t.opts.digest (t.opts.batchSize / 2) t.leaves ext := by
    show ((t.layers ++ [mkLayerFromLeaves t.opts.digest (t.opts.batchSize / 2) t.leaves ext]).getLastD [])
      = mkLayerFromLeaves t.opts.digest (t.opts.batchSize / 2) t.leaves ext
    rw [getLastD_append _ _ _ (by simp)]
    rfl
  obtain ⟨st', added, hloop, hlayers, hone, hopts, hleaves, hgood⟩ :=
    buildLoop_converges (t.opts.batchSize / 2) hb k fuel
      { t with
        originalWidth := t.leaves.length
        layers := t.layers ++ [mkLayerFromLeaves t.opts.digest (t.opts.batchSize / 2) t.leaves ext]
        leaves := t.leaves ++ ext }
      hfuel rfl hc (by rw [hlast2]; exact hL0len)
  refine ⟨st', ?_, hone, ?_⟩
  · rw [hbuild]
    exact hloop
  · intro la hla
    rw [hlayers] at hla
    have hla' : la ∈ (t.layers ++
        [mkLayerFromLeaves t.opts.digest (t.opts.batchSize / 2) t.leaves ext]) ++ added := hla
    rw [hlay] at hla'
    simp only [List.nil_append] at hla'
    rcases List.mem_append.mp hla' with hla1 | hla2
    · have hlaeq : la = mkLayerFromLeaves t.opts.digest (t.opts.batchSize / 2) t.leaves ext := by
        simpa using hla1
      subst hlaeq
      refine ⟨⟨k, hL0len⟩, List.ne_nil_of_length_pos (by rw [hL0len]; positivity), ?_, ?_⟩
      · exact (hl0minmax hne).1
      · exact (hl0minmax hne).2
    · obtain ⟨hj, hlane, hlamin, hlamax⟩ := hgood la hla2
      rw [hlast2] at hlamin hlamax
      refine ⟨hj, hlane, ?_, ?_⟩
      · rw [hlamin]
        exact (hl0minmax hne).1
      · rw [hlamax]
        exact (hl0minmax hne).2

/-- With `batchSize/2 = 1` each consolidation step maps a layer of length
`L` to a layer of the same length `L`, so once the last layer has length
`L ≥ 2` the loop never converges: it runs out of any amount of fuel. -/
theorem buildLoop_stuck (L : Nat) (hL : 2 ≤ L) :
    ∀ (fuel : Nat) (st : Tree),
      st.opts.batchSize / 2 = 1 →
      lengthPreserving st.opts.codec →
      (st.layers.getLastD []).length = L →
      (buildLoop fuel st).1 = .error .fuelOut := by
  intro fuel
  induction fuel with
  | zero =>
    intro st hbs hc hlen
    have hlt' : 1 < (st.layers.getLast?.getD []).length := by
      rw [← List.getLastD_eq_getLast?]; omega
    simp [buildLoop, hlt']
  | succ f ih =>
    intro st hbs hc hlen
    have hlt' : 1 < (st.layers.getLast?.getD []).length := by
      rw [← List.getLastD_eq_getLast?]; omega
    obtain ⟨next, ext, hcons, hnlen, _⟩ :=
      consolidateNodes_ok st 1 Nat.one_pos hbs hc (one_dvd _)
    have hstep : buildLoop (f + 1) st = buildLoop f { st with
        extendedLayers := st.extendedLayers ++ [ext]
        layers := st.layers ++ [next] } := by
      simp [buildLoop, hlt', hcons]
    rw [hstep]
    refine ih { st with
        extendedLayers := st.extendedLayers ++ [ext]
        layers := st.layers ++ [next] } hbs hc ?_
    show ((st.layers ++ [next]).getLastD []).length = L
    rw [getLastD_append _ _ _ (by simp)]
    show next.length = L
    rw [hnlen, hlen, Nat.div_one]

/-! ### Claim C2, amended -/

/-- C2, amended: divisibility of every layer by `batchSize/2` is not implied
by the entry check alone; it holds when the leaf count is
`(batchSize/2)^(k+1)` (so each consolidated layer's length is a power of
`batchSize/2`).  Then every produced layer's length is either 1 (the root
layer) or a multiple of `batchSize/2`, and no batching write goes out of
bounds (the build never panics). -/
theorem c2_amended_layer_lengths (t : Tree) (k fuel : Nat)
    (hb : 2 ≤ t.opts.batchSize / 2)
    (hc : lengthPreserving t.opts.codec)
    (hlen : t.leaves.length = (t.opts.batchSize / 2) ^ (k + 1))
    (hmul : t.leaves.length % t.opts.batchSize = 0)
    (hfuel : k ≤ fuel)
    (hlay : t.layers = []) :
    (build fuel t).1 ≠ .error .panic ∧
    ∀ la ∈ (build fuel t).2.layers,
      la.length = 1 ∨ la.length % (t.opts.batchSize / 2) = 0 := by
  obtain ⟨st', h1, h2, h3⟩ := build_success t k fuel hb hc hlen hmul hfuel hlay
  rw [h1]
  constructor
  · intro hcontra
    exact Except.noConfusion hcontra
  · intro la hla
    obtain ⟨⟨j, hj⟩, _, _, _⟩ := h3 la hla
    cases j with
    | zero =>
      left
      rw [hj, pow_zero]
    | succ m =>
      right
      rw [hj, pow_succ, Nat.mul_mod_left]

theorem c2_amended_layer_lengths_witness :
    (2 ≤ (treeOf tOpts 16).opts.batchSize / 2) ∧
    ((build 10 (treeOf tOpts 16)).1 ≠ .error .panic ∧
      ∀ la ∈ (build 10 (treeOf tOpts 16)).2.layers,
        la.length = 1 ∨ la.length % ((treeOf tOpts 16).opts.batchSize / 2) = 0) :=
  ⟨by decide, c2_amended_layer_lengths (treeOf tOpts 16) 3 10 (by decide)
    (fun xs => tCodec_lengthPreserving xs) (by decide) (by decide) (by decide) rfl⟩

/-! ### Claim C3 -/

/-- C3, counterexample: with the even batch size 2 (allowed by the claim)
and two leaves (a positive multiple of 2, codec always succeeding), the
consolidation loop never reaches a layer of length 1 — each step maps a
two-node layer to another two-node layer — so Build never returns a root,
for any amount of fuel. -/
theorem c3_counterexample_batchsize2_loops :
    ¬ ∃ fuel r, (build fuel (treeOf t2Opts 2)).1 = Except.ok r := by
  rintro ⟨fuel, r, hr⟩
  have hb : build fuel (treeOf t2Opts 2) = buildLoop fuel t2Stuck := rfl
  have hs : (buildLoop fuel t2Stuck).1 = .error .fuelOut :=
    buildLoop_stuck 2 le_rfl fuel t2Stuck (by decide)
      (fun xs => tCodec_lengthPreserving xs) (by decide)
  rw [hb, hs] at hr
  exact Except.noConfusion hr

/-- C3, amended: Build terminates with the sole final node's hash as root
when `batchSize/2 ≥ 2` and the leaf count is `(batchSize/2)^(k+1)` — not
for every even `batchSize ≥ 2` and every multiple of `batchSize` (batch
size 2 never terminates, and e.g. 12 leaves at batch size 4 panic). -/
theorem c3_amended_build_terminates (t : Tree) (k fuel : Nat)
    (hb : 2 ≤ t.opts.batchSize / 2)
    (hc : lengthPreserving t.opts.codec)
    (hlen : t.leaves.length = (t.opts.batchSize / 2) ^ (k + 1))
    (hmul : t.leaves.length % t.opts.batchSize = 0)
    (hfuel : k ≤ fuel)
    (hlay : t.layers = []) :
    ∃ st', build fuel t = (.ok (((st'.layers.getLastD []).headD default).hash), st') ∧
      (st'.layers.getLastD []).length = 1 := by
  obtain ⟨st', h1, h2, _⟩ := build_success t k fuel hb hc hlen hmul hfuel hlay
  exact ⟨st', h1, h2⟩

theorem c3_amended_build_terminates_witness :
    (2 ≤ (treeOf tOpts 8).opts.batchSize / 2) ∧
    ∃ st', build 10 (treeOf tOpts 8) =
        (.ok (((st'.layers.getLastD []).headD default).hash), st') ∧
      (st'.layers.getLastD []).length = 1 :=
  ⟨by decide, c3_amended_build_terminates (treeOf tOpts 8) 2 10 (by decide)
    (fun xs => tCodec_lengthPreserving xs) (by decide) (by decide) (by decide) rfl⟩

/-! ### Claim C7 -/

/-- C7, confirmed (for valid completed builds): when a build from a fresh,
sorted accumulation succeeds (leaf count `(batchSize/2)^(k+1)`,
`batchSize/2 ≥ 2`, codec contract), every produced layer's first node min
equals the first original leaf's namespace ID — the minimum namespace ID
among all original (pre-extension) leaves — and its last node's max equals
the last original leaf's namespace ID, the maximum; in particular this
holds for the final root layer. -/
theorem c7_layer_minmax (t : Tree) (k fuel : Nat)
    (hb : 2 ≤ t.opts.batchSize / 2)
    (hc : lengthPreserving t.opts.codec)
    (hlen : t.leaves.length = (t.opts.batchSize / 2) ^ (k + 1))
    (hmul : t.leaves.length % t.opts.batchSize = 0)
    (hfuel : k ≤ fuel)
    (hlay : t.layers = [])
    (hleaf : ∀ lf ∈ t.leaves, lf.node.min = lf.data.nsId)
    (hsorted : List.Chain' (fun a c => idLessOrEqual a c = true)
      (t.leaves.map (fun lf => lf.data.nsId))) :
    ∀ la ∈ (build fuel t).2.layers,
      (la.headD default).min = (t.leaves.headD default).data.nsId ∧
      (la.getLastD default).max = (t.leaves.getLastD default).data.nsId ∧
      ∀ x ∈ t.leaves.map (fun lf => lf.data.nsId),
        idLessOrEqual (la.headD default).min x = true ∧
        idLessOrEqual x (la.getLastD default).max = true := by
  obtain ⟨st', h1, h2, h3⟩ := build_success t k fuel hb hc hlen hmul hfuel hlay
  have hpos : 0 < t.leaves.length := by
    rw [hlen]
    have : 0 < t.opts.batchSize / 2 := by omega
    positivity
  have hne : t.leaves ≠ [] := List.ne_nil_of_length_pos hpos
  have hmapne : t.leaves.map (fun lf => lf.data.nsId) ≠ [] := by
    cases hcase : t.leaves with
    | nil => exact absurd hcase hne
    | cons a u => simp
  have hheadns : (t.leaves.headD default).node.min = (t.leaves.headD default).data.nsId :=
    hleaf _ (headD_mem _ _ hne)
  intro la hla
  rw [h1] at hla
  obtain ⟨_, _, hmin, hmax⟩ := h3 la hla
  have hmin' : (la.headD default).min = (t.leaves.headD default).data.nsId := by
    rw [hmin, hheadns]
  refine ⟨hmin', hmax, ?_⟩
  intro x hx
  have hbounds := chain_headD_le_getLastD _ hsorted x hx
  have hhd : (t.leaves.map (fun lf => lf.data.nsId)).headD [] =
      (t.leaves.headD default).data.nsId :=
    headD_map_ne (fun lf => lf.data.nsId) t.leaves hne [] default
  have hlst : (t.leaves.map (fun lf => lf.data.nsId)).getLastD [] =
      (t.leaves.getLastD default).data.nsId :=
    getLastD_map_ne (fun lf => lf.data.nsId) t.leaves hne [] default
  constructor
  · rw [hmin', ← hhd]
    exact hbounds.1
  · rw [hmax, ← hlst]
    exact hbounds.2

theorem c7_layer_minmax_witness :
    ((((build 10 (treeOf tOpts 4)).2.layers.headD []).headD default).min =
      ((treeOf tOpts 4).leaves.headD default).data.nsId) ∧
    ((((build 10 (treeOf tOpts 4)).2.layers.headD []).getLastD default).max =
      ((treeOf tOpts 4).leaves.getLastD default).data.nsId) ∧
    idLessOrEqual
      ((((build 10 (treeOf tOpts 4)).2.layers.headD []).headD default).min) [2] = true :=
  ⟨(c7_layer_minmax (treeOf tOpts 4) 1 10 (by decide)
      (fun xs => tCodec_lengthPreserving xs) (by decide) (by decide) (by decide) rfl
      (by decide)
      (by
        have hmap : (treeOf tOpts 4).leaves.map (fun lf => lf.data.nsId) =
            [[0], [1], [2], [3]] := by decide
        rw [hmap]
        simp [List.chain'_cons, idLessOrEqual, byteCmp])
      ((build 10 (treeOf tOpts 4)).2.layers.headD []) (by decide)).1,
   (c7_layer_minmax (treeOf tOpts 4) 1 10 (by decide)
      (fun xs => tCodec_lengthPreserving xs) (by decide) (by decide) (by decide) rfl
      (by decide)
      (by
        have hmap : (treeOf tOpts 4).leaves.map (fun lf => lf.data.nsId) =
            [[0], [1], [2], [3]] := by decide
        rw [hmap]
        simp [List.chain'_cons, idLessOrEqual, byteCmp])
      ((build 10 (treeOf tOpts 4)).2.layers.headD []) (by decide)).2.1,
   ((c7_layer_minmax (treeOf tOpts 4) 1 10 (by decide)
      (fun xs => tCodec_lengthPreserving xs) (by decide) (by decide) (by decide) rfl
      (by decide)
      (by
        have hmap : (treeOf tOpts 4).leaves.map (fun lf => lf.data.nsId) =
            [[0], [1], [2], [3]] := by decide
        rw [hmap]
        simp [List.chain'_cons, idLessOrEqual, byteCmp])
      ((build 10 (treeOf tOpts 4)).2.layers.headD []) (by decide)).2.2
      [2] (by decide)).1⟩

end NCMT
